import Mathlib

/-!
# Verification of the typed settings proxy (fitbit-settings-commons)

Shallow embedding of the `TypedSettingProps` wrapper (the v2 source shipped in
the repository): the JSON value model with the host language's
`JSON.stringify` / `JSON.parse` pair, the default unpacker
`jsonParseUnpackInitiator`, the codec configuration (`PackerUnpackerOption`,
`DefaultPackerUnpackerOption`), and the stateful proxy operations
(`constructor`, `update`, `get`, `getToUpdate` access, `commit`, `persist`,
`track`), together with proofs of the specified properties.

JavaScript objects are modelled as association lists in insertion order
(assignment overwrites in place, new keys are appended); a key present with
the value `undefined` is distinguished from an absent key, as in JavaScript.
`undefined` is modelled by `Option`: `none` is absence/`undefined`.
-/

namespace FitbitSettings

/-- JSON-representable values (the `unknown` typed-setting values of the
wrapper).  Numbers are modelled by integers. -/
inductive JVal where
  | null : JVal
  | bool (b : Bool) : JVal
  | num (n : Int) : JVal
  | str (s : String) : JVal
  | arr (xs : List JVal) : JVal
  | obj (fs : List (String × JVal)) : JVal
deriving Repr

/-! ## Sizes (used as fuel bounds for the parser) -/

mutual

def jsize : JVal → Nat
  | .arr xs => jsizeA xs + 1
  | .obj fs => jsizeO fs + 1
  | _ => 1

def jsizeA : List JVal → Nat
  | x :: y :: xs => jsize x + jsizeA (y :: xs) + 1
  | [x] => jsize x + 1
  | [] => 1

def jsizeO : List (String × JVal) → Nat
  | (_, v) :: f :: fs => jsize v + jsizeO (f :: fs) + 1
  | [(_, v)] => jsize v + 1
  | [] => 1

end

/-! ## `JSON.stringify` model -/

/-- Decimal digit character for `n < 10`. -/
def digitChar (n : Nat) : Char := Char.ofNat (48 + n)

/-- Hexadecimal digit character for `n < 16` (lower case, as produced by
`JSON.stringify` in `\u00xx` escapes). -/
def hexChar (n : Nat) : Char :=
  if n < 10 then Char.ofNat (48 + n) else Char.ofNat (87 + n)

/-- Decimal digits of a natural number, most significant first. -/
def natDigits (n : Nat) : List Char :=
  if _h : n < 10 then [digitChar n]
  else natDigits (n / 10) ++ [digitChar (n % 10)]
  decreasing_by exact Nat.div_lt_self (by omega) (by omega)

/-- Decimal representation of an integer, as printed by `JSON.stringify`. -/
def intDigits : Int → List Char
  | .ofNat n => natDigits n
  | .negSucc n => '-' :: natDigits (n + 1)

/-- `JSON.stringify` escaping of a single string character: `"` and `\`
get a backslash escape, the common control characters get their short
escapes, the remaining control characters get a `\u00xx` escape, and every
other character is emitted unchanged. -/
def escapeChar (c : Char) : List Char :=
  if c = '"' then ['\\', '"']
  else if c = '\\' then ['\\', '\\']
  else if c = Char.ofNat 8 then ['\\', 'b']
  else if c = Char.ofNat 9 then ['\\', 't']
  else if c = Char.ofNat 10 then ['\\', 'n']
  else if c = Char.ofNat 12 then ['\\', 'f']
  else if c = Char.ofNat 13 then ['\\', 'r']
  else if c.toNat < 32 then
    ['\\', 'u', '0', '0', hexChar (c.toNat / 16), hexChar (c.toNat % 16)]
  else [c]

def escapeList : List Char → List Char
  | [] => []
  | c :: cs => escapeChar c ++ escapeList cs

/-- A JSON string literal: quoted and escaped. -/
def escString (s : String) : List Char :=
  '"' :: (escapeList s.data ++ ['"'])

mutual

/-- `JSON.stringify`, producing the character list of the output. -/
def stringifyL : JVal → List Char
  | .str s => escString s
  | .num n => intDigits n
  | .bool b => if b then ['t', 'r', 'u', 'e'] else ['f', 'a', 'l', 's', 'e']
  | .null => ['n', 'u', 'l', 'l']
  | .arr xs => ('[' :: stringifyElems xs) ++ [']']
  | .obj fs => ('{' :: stringifyMembers fs) ++ ['}']

/-- Comma-separated element list of an array. -/
def stringifyElems : List JVal → List Char
  | x :: y :: xs => stringifyL x ++ ',' :: stringifyElems (y :: xs)
  | [x] => stringifyL x
  | [] => []

/-- Comma-separated member list of an object. -/
def stringifyMembers : List (String × JVal) → List Char
  | (k, v) :: m :: fs => escString k ++ ':' :: stringifyL v ++ ',' :: stringifyMembers (m :: fs)
  | [(k, v)] => escString k ++ ':' :: stringifyL v
  | [] => []

end

/-- `JSON.stringify` as a string-valued function. -/
def stringify (v : JVal) : String := String.mk (stringifyL v)

/-! ## `JSON.parse` model

A recursive-descent parser over character lists, with a fuel parameter for
termination.  It accepts the grammar produced by `stringifyL` (the model
keeps to the integer-number, no-insignificant-whitespace fragment of JSON;
strings support the full escape repertoire emitted by `JSON.stringify` plus
`\/` and general `\uXXXX` scalar escapes). -/

/-- Value of a hexadecimal digit character. -/
def hexVal (c : Char) : Option Nat :=
  if '0' ≤ c ∧ c ≤ '9' then some (c.toNat - 48)
  else if 'a' ≤ c ∧ c ≤ 'f' then some (c.toNat - 87)
  else if 'A' ≤ c ∧ c ≤ 'F' then some (c.toNat - 55)
  else none

/-- The character denoted by a single-character escape sequence. -/
def unescapeChar (c : Char) : Option Char :=
  if c = '"' then some '"'
  else if c = '\\' then some '\\'
  else if c = '/' then some '/'
  else if c = 'b' then some (Char.ofNat 8)
  else if c = 'f' then some (Char.ofNat 12)
  else if c = 'n' then some (Char.ofNat 10)
  else if c = 'r' then some (Char.ofNat 13)
  else if c = 't' then some (Char.ofNat 9)
  else none

/-- Parse the body of a string literal (after the opening quote), up to and
including the closing quote.  Returns the decoded characters and the rest of
the input.  Unescaped control characters are rejected, as by `JSON.parse`. -/
def parseStringBody : List Char → Option (List Char × List Char)
  | [] => none
  | c :: cs =>
    if c = '"' then some ([], cs)
    else if c = '\\' then
      match cs with
      | 'u' :: h1 :: h2 :: h3 :: h4 :: cs' =>
        match hexVal h1, hexVal h2, hexVal h3, hexVal h4 with
        | some d1, some d2, some d3, some d4 =>
          let n := ((d1 * 16 + d2) * 16 + d3) * 16 + d4
          if n < 55296 then
            match parseStringBody cs' with
            | some (s, r) => some (Char.ofNat n :: s, r)
            | none => none
          else none
        | _, _, _, _ => none
      | e :: cs' =>
        match unescapeChar e with
        | some d =>
          match parseStringBody cs' with
          | some (s, r) => some (d :: s, r)
          | none => none
        | none => none
      | [] => none
    else if c.toNat < 32 then none
    else
      match parseStringBody cs with
      | some (s, r) => some (c :: s, r)
      | none => none

/-- Decimal digit test (`'0' ≤ c ≤ '9'`). -/
def isDig (c : Char) : Bool := 48 ≤ c.toNat && c.toNat ≤ 57

/-- Parse a run of decimal digits, extending the accumulator. -/
def parseNat (acc : Nat) : List Char → Nat × List Char
  | [] => (acc, [])
  | c :: cs =>
    if isDig c then parseNat (acc * 10 + (c.toNat - 48)) cs
    else (acc, c :: cs)

/-- `True` when the input does not continue with a decimal digit (so a
number literal just before it ends exactly there). -/
def headNotDigit : List Char → Bool
  | [] => true
  | c :: _ => !isDig c

/-- Parsing modes of the recursive-descent parser: a single value, the
elements of an array after its opening bracket, or the members of an
object after its opening brace.  The element mode returns an `.arr`, the
member mode an `.obj`.  A single mode-indexed function keeps the recursion
structural on the fuel. -/
inductive PMode where
  | val : PMode
  | elems : PMode
  | membs : PMode

/-- The recursive-descent parser.  The fuel `n` bounds the recursion
depth; every recursive call spends one unit. -/
def parseP : PMode → Nat → List Char → Option (JVal × List Char)
  | _, 0, _ => none
  | _, _ + 1, [] => none
  | .val, n + 1, c :: rest =>
    if c = 'n' then
      match rest with
      | 'u' :: 'l' :: 'l' :: r => some (.null, r)
      | _ => none
    else if c = 't' then
      match rest with
      | 'r' :: 'u' :: 'e' :: r => some (.bool true, r)
      | _ => none
    else if c = 'f' then
      match rest with
      | 'a' :: 'l' :: 's' :: 'e' :: r => some (.bool false, r)
      | _ => none
    else if c = '"' then
      match parseStringBody rest with
      | some (s, r) => some (.str (String.mk s), r)
      | none => none
    else if c = '[' then parseP .elems n rest
    else if c = '{' then parseP .membs n rest
    else if c = '-' then
      match rest with
      | c2 :: _ =>
        if isDig c2 then
          let p := parseNat 0 rest
          some (.num (-(p.1 : Int)), p.2)
        else none
      | [] => none
    else if isDig c then
      let p := parseNat 0 (c :: rest)
      some (.num (p.1 : Int), p.2)
    else none
  | .elems, n + 1, c :: rest =>
    if c = ']' then some (.arr [], rest)
    else
      match parseP .val n (c :: rest) with
      | some (v, ',' :: r') =>
        match parseP .elems n r' with
        | some (.arr xs, r'') => some (.arr (v :: xs), r'')
        | _ => none
      | some (v, ']' :: r') => some (.arr [v], r')
      | _ => none
  | .membs, n + 1, c :: rest =>
    if c = '}' then some (.obj [], rest)
    else if c = '"' then
      match parseStringBody rest with
      | some (s, ':' :: r2) =>
        match parseP .val n r2 with
        | some (v, ',' :: r4) =>
          match parseP .membs n r4 with
          | some (.obj fs, r5) => some (.obj ((String.mk s, v) :: fs), r5)
          | _ => none
        | some (v, '}' :: r4) => some (.obj [(String.mk s, v)], r4)
        | _ => none
      | _ => none
    else none

/-- `JSON.parse` (returning `none` where `JSON.parse` throws): the whole
input must be consumed. -/
def parse (s : String) : Option JVal :=
  match parseP .val (s.data.length + 1) s.data with
  | some (v, []) => some v
  | _ => none

/-! ## Round-trip of the default codec (`JSON.parse` after `JSON.stringify`) -/

theorem ne_of_toNat_ne {c d : Char} (h : c.toNat ≠ d.toNat) : c ≠ d :=
  fun he => h (by rw [he])

theorem isDig_toNat {c : Char} (h : isDig c = true) : 48 ≤ c.toNat ∧ c.toNat ≤ 57 := by
  simpa [isDig] using h

theorem hexVal_hexChar : ∀ m, m < 16 → hexVal (hexChar m) = some m := by decide

theorem isDig_digitChar : ∀ m, m < 10 → isDig (digitChar m) = true := by decide

theorem toNat_digitChar : ∀ m, m < 10 → (digitChar m).toNat = 48 + m := by decide

theorem parseStringBody_escapeList (l : List Char) (rest : List Char) :
    parseStringBody (escapeList l ++ '"' :: rest) = some (l, rest) := by
  induction l with
  | nil =>
    rw [show escapeList [] ++ '"' :: rest = '"' :: rest from rfl, parseStringBody.eq_def]
    simp
  | cons c l ih =>
    rw [show escapeList (c :: l) = escapeChar c ++ escapeList l from rfl, List.append_assoc]
    by_cases h1 : c = '"'
    · subst h1; simp [escapeChar, parseStringBody, unescapeChar, ih]
    · by_cases h2 : c = '\\'
      · subst h2; simp [escapeChar, parseStringBody, unescapeChar, ih]
      · by_cases h3 : c = Char.ofNat 8
        · subst h3; simp [escapeChar, parseStringBody, unescapeChar, ih]
        · by_cases h4 : c = Char.ofNat 9
          · subst h4; simp [escapeChar, parseStringBody, unescapeChar, ih]
          · by_cases h5 : c = Char.ofNat 10
            · subst h5; simp [escapeChar, parseStringBody, unescapeChar, ih]
            · by_cases h6 : c = Char.ofNat 12
              · subst h6; simp [escapeChar, parseStringBody, unescapeChar, ih]
              · by_cases h7 : c = Char.ofNat 13
                · subst h7; simp [escapeChar, parseStringBody, unescapeChar, ih]
                · by_cases h8 : c.toNat < 32
                  · have e3 : hexVal (hexChar (c.toNat / 16)) = some (c.toNat / 16) :=
                      hexVal_hexChar _ (by omega)
                    have e4 : hexVal (hexChar (c.toNat % 16)) = some (c.toNat % 16) :=
                      hexVal_hexChar _ (by omega)
                    have hesc : escapeChar c =
                        ['\\', 'u', '0', '0', hexChar (c.toNat / 16), hexChar (c.toNat % 16)] := by
                      simp [escapeChar, h1, h2, h3, h4, h5, h6, h7, h8]
                    rw [hesc]
                    have hn : ((0 * 16 + 0) * 16 + c.toNat / 16) * 16 + c.toNat % 16 = c.toNat := by
                      omega
                    have e1 : hexVal '0' = some 0 := by decide
                    rw [List.cons_append, List.cons_append, List.cons_append,
                      List.cons_append, List.cons_append, List.cons_append,
                      parseStringBody.eq_def]
                    simp only [e1, e3, e4, ih, List.nil_append]
                    rw [hn, if_pos (show c.toNat < 55296 by omega), Char.ofNat_toNat]
                    simp
                  · have hesc : escapeChar c = [c] := by
                      simp [escapeChar, h1, h2, h3, h4, h5, h6, h7, h8]
                    rw [hesc, List.cons_append, List.nil_append, parseStringBody.eq_def]
                    simp [h1, h2, h8, ih]

theorem parseStringBody_escString (s : String) (rest : List Char) :
    parseStringBody (escapeList s.data ++ '"' :: rest) = some (s.data, rest) :=
  parseStringBody_escapeList s.data rest

theorem parseNat_stop (acc : Nat) (rest : List Char) (h : headNotDigit rest = true) :
    parseNat acc rest = (acc, rest) := by
  cases rest with
  | nil => rfl
  | cons c cs =>
    have hc : isDig c = false := by
      cases hd : isDig c with
      | false => rfl
      | true => simp [headNotDigit, hd] at h
    simp [parseNat, hc]

theorem natDigits_head (n : Nat) : ∃ c cs, natDigits n = c :: cs ∧ isDig c = true := by
  induction n using Nat.strong_induction_on with
  | _ n ih =>
    rcases Nat.lt_or_ge n 10 with h | h
    · refine ⟨digitChar n, [], ?_, isDig_digitChar n h⟩
      rw [natDigits.eq_def]
      simp [h]
    · have hlt : n / 10 < n := Nat.div_lt_self (by omega) (by omega)
      obtain ⟨c, cs, heq, hdig⟩ := ih (n / 10) hlt
      refine ⟨c, cs ++ [digitChar (n % 10)], ?_, hdig⟩
      rw [natDigits.eq_def]
      simp [heq, show ¬n < 10 by omega]

theorem parseNat_digits (n : Nat) : ∀ acc rest,
    parseNat acc (natDigits n ++ rest) =
      parseNat (acc * 10 ^ (natDigits n).length + n) rest := by
  induction n using Nat.strong_induction_on with
  | _ n ih =>
    intro acc rest
    by_cases h : n < 10
    · have hnd : natDigits n = [digitChar n] := by rw [natDigits.eq_def]; simp [h]
      rw [hnd]
      have h1 : acc * 10 + ((digitChar n).toNat - 48) = acc * 10 ^ ([digitChar n].length) + n := by
        rw [toNat_digitChar n h]; simp
      simp [parseNat, isDig_digitChar n h, h1]
    · have hnd : natDigits n = natDigits (n / 10) ++ [digitChar (n % 10)] := by
        rw [natDigits.eq_def]; simp [h]
      rw [hnd, List.append_assoc, ih (n / 10) (Nat.div_lt_self (by omega) (by omega)),
        List.singleton_append]
      have hd9 : n % 10 < 10 := by omega
      have harith : (acc * 10 ^ (natDigits (n / 10)).length + n / 10) * 10 +
          ((digitChar (n % 10)).toNat - 48) =
          acc * 10 ^ ((natDigits (n / 10)).length + 1) + n := by
        rw [toNat_digitChar _ hd9, pow_succ]
        have hmod : n / 10 * 10 + n % 10 = n := by omega
        calc (acc * 10 ^ (natDigits (n / 10)).length + n / 10) * 10 + (48 + n % 10 - 48)
            = acc * (10 ^ (natDigits (n / 10)).length * 10) + (n / 10 * 10 + n % 10) := by
              have : 48 + n % 10 - 48 = n % 10 := by omega
              rw [this]; ring
          _ = acc * (10 ^ (natDigits (n / 10)).length * 10) + n := by rw [hmod]
      simp [parseNat, isDig_digitChar _ hd9, harith]

theorem parseNat_natDigits (n : Nat) (rest : List Char) (h : headNotDigit rest = true) :
    parseNat 0 (natDigits n ++ rest) = (n, rest) := by
  rw [parseNat_digits]
  simpa using parseNat_stop n rest h

theorem jsize_pos (v : JVal) : 1 ≤ jsize v := by
  cases v <;> simp [jsize]

theorem jsizeA_pos (xs : List JVal) : 1 ≤ jsizeA xs := by
  match xs with
  | [] => simp [jsizeA]
  | [x] => simp [jsizeA]
  | x :: y :: xs => simp only [jsizeA]; omega

theorem jsizeO_pos (fs : List (String × JVal)) : 1 ≤ jsizeO fs := by
  match fs with
  | [] => simp [jsizeO]
  | [(k, v)] => simp [jsizeO]
  | (k, v) :: f :: fs => simp only [jsizeO]; omega

mutual

theorem jsize_le_len (v : JVal) : jsize v ≤ (stringifyL v).length := by
  match v with
  | .null => simp [jsize, stringifyL]
  | .bool true => simp [jsize, stringifyL]
  | .bool false => simp [jsize, stringifyL]
  | .num i =>
    have h1 : 1 ≤ (intDigits i).length := by
      match i with
      | .ofNat m =>
        obtain ⟨c, cs, hnd, _⟩ := natDigits_head m
        simp [intDigits, hnd]
      | .negSucc m => simp [intDigits]
    simpa [jsize, stringifyL] using h1
  | .str s => simp [jsize, stringifyL, escString]
  | .arr xs =>
    have := jsizeA_le_len xs
    simp [jsize, stringifyL]
    omega
  | .obj fs =>
    have := jsizeO_le_len fs
    simp [jsize, stringifyL]
    omega

theorem jsizeA_le_len (xs : List JVal) : jsizeA xs ≤ (stringifyElems xs).length + 1 := by
  match xs with
  | [] => simp [jsizeA, stringifyElems]
  | [x] =>
    have := jsize_le_len x
    simp [jsizeA, stringifyElems]
    omega
  | x :: y :: xs =>
    have h1 := jsize_le_len x
    have h2 := jsizeA_le_len (y :: xs)
    simp [jsizeA, stringifyElems]
    omega

theorem jsizeO_le_len (fs : List (String × JVal)) : jsizeO fs ≤ (stringifyMembers fs).length + 1 := by
  match fs with
  | [] => simp [jsizeO, stringifyMembers]
  | [(k, v)] =>
    have := jsize_le_len v
    simp [jsizeO, stringifyMembers]
    omega
  | (k, v) :: f :: fs =>
    have h1 := jsize_le_len v
    have h2 := jsizeO_le_len (f :: fs)
    simp [jsizeO, stringifyMembers]
    omega

end

theorem String.mk_data (s : String) : String.mk s.data = s := by cases s; rfl

theorem isDig_ne_of {c : Char} (h : isDig c = true) {d : Char}
    (hd : d.toNat < 48 ∨ 57 < d.toNat) : c ≠ d := by
  obtain ⟨h1, h2⟩ := isDig_toNat h
  exact ne_of_toNat_ne (by omega)

/-- The separation condition forced by greedy number parsing: after a
number literal, the remaining input must not begin with a digit. -/
def sepOk (v : JVal) (rest : List Char) : Bool :=
  match v with
  | .num _ => headNotDigit rest
  | _ => true

theorem sepOk_of_head (v : JVal) (c : Char) (cs : List Char) (h : isDig c = false) :
    sepOk v (c :: cs) = true := by
  cases v <;> simp [sepOk, headNotDigit, h]

/-- The first character of a stringified value is never a closing bracket,
closing brace, comma or colon. -/
theorem stringify_head (v : JVal) : ∃ c cs, stringifyL v = c :: cs ∧
    c ≠ ']' ∧ c ≠ '}' := by
  match v with
  | .null => exact ⟨'n', ['u', 'l', 'l'], by simp [stringifyL], by decide, by decide⟩
  | .bool true => exact ⟨'t', ['r', 'u', 'e'], by simp [stringifyL], by decide, by decide⟩
  | .bool false => exact ⟨'f', ['a', 'l', 's', 'e'], by simp [stringifyL], by decide, by decide⟩
  | .num (.ofNat m) =>
    obtain ⟨c, cs, hnd, hdig⟩ := natDigits_head m
    exact ⟨c, cs, by simp [stringifyL, intDigits, hnd],
      isDig_ne_of hdig (by decide), isDig_ne_of hdig (by decide)⟩
  | .num (.negSucc m) =>
    exact ⟨'-', natDigits (m + 1), by simp [stringifyL, intDigits], by decide, by decide⟩
  | .str s =>
    exact ⟨'"', escapeList s.data ++ ['"'], by simp [stringifyL, escString], by decide, by decide⟩
  | .arr xs =>
    exact ⟨'[', stringifyElems xs ++ [']'], by simp [stringifyL], by decide, by decide⟩
  | .obj fs =>
    exact ⟨'{', stringifyMembers fs ++ ['}'], by simp [stringifyL], by decide, by decide⟩


/-- One-step unfolding of the parser in value mode on a non-empty input. -/
theorem parseP_val_step (n : Nat) (c : Char) (t : List Char) :
    parseP .val (n + 1) (c :: t) =
      (if c = 'n' then
        match t with
        | 'u' :: 'l' :: 'l' :: r => some (.null, r)
        | _ => none
      else if c = 't' then
        match t with
        | 'r' :: 'u' :: 'e' :: r => some (.bool true, r)
        | _ => none
      else if c = 'f' then
        match t with
        | 'a' :: 'l' :: 's' :: 'e' :: r => some (.bool false, r)
        | _ => none
      else if c = '"' then
        match parseStringBody t with
        | some (s, r) => some (.str (String.mk s), r)
        | none => none
      else if c = '[' then parseP .elems n t
      else if c = '{' then parseP .membs n t
      else if c = '-' then
        match t with
        | c2 :: _ =>
          if isDig c2 then
            let p := parseNat 0 t
            some (.num (-(p.1 : Int)), p.2)
          else none
        | [] => none
      else if isDig c then
        let p := parseNat 0 (c :: t)
        some (.num (p.1 : Int), p.2)
      else none) := rfl

/-- One-step unfolding of the parser in array-element mode. -/
theorem parseP_elems_step (n : Nat) (c : Char) (t : List Char) :
    parseP .elems (n + 1) (c :: t) =
      (if c = ']' then some (.arr [], t)
      else
        match parseP .val n (c :: t) with
        | some (v, ',' :: r') =>
          (match parseP .elems n r' with
            | some (.arr xs, r'') => some (.arr (v :: xs), r'')
            | _ => none)
        | some (v, ']' :: r') => some (.arr [v], r')
        | _ => none) := rfl

/-- One-step unfolding of the parser in object-member mode. -/
theorem parseP_membs_step (n : Nat) (c : Char) (t : List Char) :
    parseP .membs (n + 1) (c :: t) =
      (if c = '}' then some (.obj [], t)
      else if c = '"' then
        match parseStringBody t with
        | some (s, ':' :: r2) =>
          (match parseP .val n r2 with
            | some (w, ',' :: r4) =>
              (match parseP .membs n r4 with
                | some (.obj fs, r5) => some (.obj ((String.mk s, w) :: fs), r5)
                | _ => none)
            | some (w, '}' :: r4) => some (.obj [(String.mk s, w)], r4)
            | _ => none)
        | _ => none
      else none) := rfl

/-- Main round-trip statement, by induction on the parser fuel: parsing the
output of `stringifyL` (in any of the three modes, with the mode's closing
context appended) succeeds and returns exactly the printed value. -/
theorem parseP_stringifyL : ∀ n : Nat,
    (∀ v rest, jsize v ≤ n → sepOk v rest = true →
      parseP .val n (stringifyL v ++ rest) = some (v, rest)) ∧
    (∀ xs rest, jsizeA xs ≤ n →
      parseP .elems n (stringifyElems xs ++ ']' :: rest) = some (.arr xs, rest)) ∧
    (∀ fs rest, jsizeO fs ≤ n →
      parseP .membs n (stringifyMembers fs ++ '}' :: rest) = some (.obj fs, rest)) := by
  intro n
  induction n with
  | zero =>
    refine ⟨fun v _ h _ => absurd h ?_, fun xs _ h => absurd h ?_, fun fs _ h => absurd h ?_⟩
    · have := jsize_pos v; omega
    · have := jsizeA_pos xs; omega
    · have := jsizeO_pos fs; omega
  | succ n ih =>
    obtain ⟨ihv, ihe, ihm⟩ := ih
    refine ⟨?_, ?_, ?_⟩
    · intro v rest hsz hsep
      match v with
      | .null =>
        rw [show stringifyL .null ++ rest = 'n' :: 'u' :: 'l' :: 'l' :: rest from
          by simp [stringifyL]]
        rfl
      | .bool true =>
        rw [show stringifyL (.bool true) ++ rest = 't' :: 'r' :: 'u' :: 'e' :: rest from
          by simp [stringifyL]]
        rfl
      | .bool false =>
        rw [show stringifyL (.bool false) ++ rest = 'f' :: 'a' :: 'l' :: 's' :: 'e' :: rest from
          by simp [stringifyL]]
        rfl
      | .str s =>
        rw [show stringifyL (.str s) ++ rest = '"' :: (escapeList s.data ++ '"' :: rest) from
          by simp [stringifyL, escString], parseP_val_step, if_neg (by decide), if_neg (by decide),
          if_neg (by decide), if_pos rfl, parseStringBody_escapeList]
      | .num (.ofNat m) =>
        obtain ⟨c, cs, hnd, hdig⟩ := natDigits_head m
        rw [show stringifyL (.num (.ofNat m)) ++ rest = c :: (cs ++ rest) from
            by simp [stringifyL, intDigits, hnd],
          parseP_val_step,
          if_neg (isDig_ne_of hdig (by decide) : c ≠ 'n'),
          if_neg (isDig_ne_of hdig (by decide) : c ≠ 't'),
          if_neg (isDig_ne_of hdig (by decide) : c ≠ 'f'),
          if_neg (isDig_ne_of hdig (by decide) : c ≠ '"'),
          if_neg (isDig_ne_of hdig (by decide) : c ≠ '['),
          if_neg (isDig_ne_of hdig (by decide) : c ≠ '{'),
          if_neg (isDig_ne_of hdig (by decide) : c ≠ '-'),
          if_pos hdig,
          show c :: (cs ++ rest) = natDigits m ++ rest from by rw [hnd]; simp,
          parseNat_natDigits m rest (by simpa [sepOk] using hsep)]
        rfl
      | .num (.negSucc m) =>
        obtain ⟨c2, cs2, hnd, hdig⟩ := natDigits_head (m + 1)
        rw [show stringifyL (.num (.negSucc m)) ++ rest = '-' :: (c2 :: (cs2 ++ rest)) from
            by simp [stringifyL, intDigits, hnd],
          parseP_val_step, if_neg (by decide), if_neg (by decide), if_neg (by decide),
          if_neg (by decide), if_neg (by decide), if_neg (by decide), if_pos rfl]
        rw [show (match c2 :: (cs2 ++ rest) with
            | c2 :: _ =>
              if isDig c2 then
                let p := parseNat 0 (c2 :: (cs2 ++ rest))
                some (JVal.num (-(p.1 : Int)), p.2)
              else none
            | [] => none) =
            (if isDig c2 then
              let p := parseNat 0 (c2 :: (cs2 ++ rest))
              some (JVal.num (-(p.1 : Int)), p.2)
            else none) from rfl,
          if_pos hdig,
          show c2 :: (cs2 ++ rest) = natDigits (m + 1) ++ rest from by rw [hnd]; simp,
          parseNat_natDigits (m + 1) rest (by simpa [sepOk] using hsep)]
        simp [Int.negSucc_eq]
      | .arr xs =>
        have hsz' : jsizeA xs ≤ n := by simp only [jsize] at hsz; omega
        rw [show stringifyL (.arr xs) ++ rest = '[' :: (stringifyElems xs ++ ']' :: rest) from
            by simp [stringifyL],
          show parseP .val (n + 1) ('[' :: (stringifyElems xs ++ ']' :: rest)) =
            parseP .elems n (stringifyElems xs ++ ']' :: rest) from rfl]
        exact ihe xs rest hsz'
      | .obj fs =>
        have hsz' : jsizeO fs ≤ n := by simp only [jsize] at hsz; omega
        rw [show stringifyL (.obj fs) ++ rest = '{' :: (stringifyMembers fs ++ '}' :: rest) from
            by simp [stringifyL],
          show parseP .val (n + 1) ('{' :: (stringifyMembers fs ++ '}' :: rest)) =
            parseP .membs n (stringifyMembers fs ++ '}' :: rest) from rfl]
        exact ihm fs rest hsz'
    · intro xs rest hsz
      match xs with
      | [] =>
        rw [show stringifyElems [] ++ ']' :: rest = ']' :: rest from by simp [stringifyElems]]
        rfl
      | [x] =>
        obtain ⟨c, cs, hhd, hne1, _⟩ := stringify_head x
        have hszx : jsize x ≤ n := by simp only [jsizeA] at hsz; omega
        have hv : parseP .val n (c :: (cs ++ ']' :: rest)) = some (x, ']' :: rest) := by
          rw [show c :: (cs ++ ']' :: rest) = stringifyL x ++ ']' :: rest from
            by rw [hhd]; simp]
          exact ihv x (']' :: rest) hszx (sepOk_of_head x _ _ (by decide))
        rw [show stringifyElems [x] ++ ']' :: rest = c :: (cs ++ ']' :: rest) from
            by simp [stringifyElems, hhd],
          parseP_elems_step, if_neg hne1, hv]
        rfl
      | x :: y :: xs' =>
        obtain ⟨c, cs, hhd, hne1, _⟩ := stringify_head x
        have hszx : jsize x ≤ n := by
          simp only [jsizeA] at hsz; have := jsizeA_pos (y :: xs'); omega
        have hszr : jsizeA (y :: xs') ≤ n := by
          simp only [jsizeA] at hsz ⊢; have := jsize_pos x; omega
        have hv : parseP .val n (c :: (cs ++ ',' :: (stringifyElems (y :: xs') ++ ']' :: rest))) =
            some (x, ',' :: (stringifyElems (y :: xs') ++ ']' :: rest)) := by
          rw [show c :: (cs ++ ',' :: (stringifyElems (y :: xs') ++ ']' :: rest)) =
              stringifyL x ++ ',' :: (stringifyElems (y :: xs') ++ ']' :: rest) from
            by rw [hhd]; simp]
          exact ihv x _ hszx (sepOk_of_head x _ _ (by decide))
        have he : parseP .elems n (stringifyElems (y :: xs') ++ ']' :: rest) =
            some (.arr (y :: xs'), rest) := ihe (y :: xs') rest hszr
        rw [show stringifyElems (x :: y :: xs') ++ ']' :: rest =
            c :: (cs ++ ',' :: (stringifyElems (y :: xs') ++ ']' :: rest)) from
            by simp [stringifyElems, hhd],
          parseP_elems_step, if_neg hne1]
        simp only [hv, he]
    · intro fs rest hsz
      match fs with
      | [] =>
        rw [show stringifyMembers [] ++ '}' :: rest = '}' :: rest from by simp [stringifyMembers]]
        rfl
      | [(k, v)] =>
        have hszv : jsize v ≤ n := by simp only [jsizeO] at hsz; omega
        have hv : parseP .val n (stringifyL v ++ '}' :: rest) = some (v, '}' :: rest) :=
          ihv v _ hszv (sepOk_of_head v _ _ (by decide))
        rw [show stringifyMembers [(k, v)] ++ '}' :: rest =
            '"' :: (escapeList k.data ++ '"' :: (':' :: (stringifyL v ++ '}' :: rest))) from
            by simp [stringifyMembers, escString],
          parseP_membs_step, if_neg (by decide), if_pos rfl, parseStringBody_escapeList]
        simp only [hv, String.mk_data]
      | (k, v) :: f :: fs' =>
        have hszv : jsize v ≤ n := by
          simp only [jsizeO] at hsz; have := jsizeO_pos (f :: fs'); omega
        have hszr : jsizeO (f :: fs') ≤ n := by
          simp only [jsizeO] at hsz ⊢; have := jsize_pos v; omega
        have hv : parseP .val n (stringifyL v ++ ',' :: (stringifyMembers (f :: fs') ++ '}' :: rest)) =
            some (v, ',' :: (stringifyMembers (f :: fs') ++ '}' :: rest)) :=
          ihv v _ hszv (sepOk_of_head v _ _ (by decide))
        have hm : parseP .membs n (stringifyMembers (f :: fs') ++ '}' :: rest) =
            some (.obj (f :: fs'), rest) := ihm (f :: fs') rest hszr
        rw [show stringifyMembers ((k, v) :: f :: fs') ++ '}' :: rest =
            '"' :: (escapeList k.data ++ '"' ::
              (':' :: (stringifyL v ++ ',' :: (stringifyMembers (f :: fs') ++ '}' :: rest)))) from
            by simp [stringifyMembers, escString],
          parseP_membs_step, if_neg (by decide), if_pos rfl, parseStringBody_escapeList]
        simp only [hv, hm, String.mk_data]

theorem sepOk_nil (v : JVal) : sepOk v [] = true := by
  cases v <;> simp [sepOk, headNotDigit]

/-- `JSON.parse` inverts `JSON.stringify` on every representable value. -/
theorem parse_stringify (v : JVal) : parse (stringify v) = some v := by
  have hle : jsize v ≤ (stringifyL v).length + 1 := by
    have := jsize_le_len v; omega
  have h := (parseP_stringifyL ((stringifyL v).length + 1)).1 v [] hle (sepOk_nil v)
  rw [List.append_nil] at h
  show (match parseP .val ((stringifyL v).length + 1) (stringifyL v) with
    | some (v, []) => some v
    | _ => none) = some v
  rw [h]

theorem stringify_ne_empty (v : JVal) : stringify v ≠ "" := by
  obtain ⟨c, cs, hhd, _, _⟩ := stringify_head v
  intro h
  rw [stringify, hhd] at h
  exact List.noConfusion (congrArg String.data h)


/-! ## The wrapper's codec configuration (v2 API)

Embedding of `PackerUnpackerOption`, `DefaultPackerUnpackerOption`, the
default unpacker `jsonParseUnpackInitiator` and the wrapper's codec
resolution (`?.packer ?? defaultPacker`, `?.unpackInitiator ??
defaultUnpackInitiator`). -/

/-- The default unpacker/initiator of the wrapper:
`setting ? JSON.parse(setting) : undefined`, returning the raw string when
`JSON.parse` throws.  Note that both `undefined` and the empty string are
falsy, so both produce `undefined` (`none`). -/
def jsonParseUnpackInitiator (setting : Option String) : Option JVal :=
  match setting with
  | none => none
  | some s =>
    if s = "" then none
    else
      match parse s with
      | some v => some v
      | none => some (.str s)

/-- `stringifyNonString`: `JSON.stringify(value)` unless the value already
is a string, in which case the string itself. -/
def stringifyNonString (v : JVal) : String :=
  match v with
  | .str s => s
  | v => stringify v

/-- Per-key entry of `PackerUnpackerOption`. -/
structure KeyCodec where
  packer : Option (JVal → String)
  unpackInitiator : Option (Option String → Option JVal)

/-- `DefaultPackerUnpackerOption`. -/
structure DefaultPackerUnpacker where
  packer : Option (JVal → String)
  unpacker : Option (Option String → Option JVal)

/-- The two optional constructor parameters of `TypedSettingProps`:
`packerUnpackers` (an object, one optional `KeyCodec` per key) and
`defaultPackerUnpacker`. -/
structure Config where
  packerUnpackers : Option (List (String × KeyCodec))
  defaultPackerUnpacker : Option DefaultPackerUnpacker

/-- The wrapper with no optional constructor arguments. -/
def defaultConfig : Config := ⟨none, none⟩

/-- Association-list lookup, modelling JavaScript property read. -/
def alistLookup {α : Type} : List (String × α) → String → Option α
  | [], _ => none
  | (k, v) :: rest, key => if k = key then some v else alistLookup rest key

/-- Association-list assignment, modelling JavaScript property write:
an existing key is overwritten in place, a new key is appended. -/
def alistAssign {α : Type} : List (String × α) → String → α → List (String × α)
  | [], key, v => [(key, v)]
  | (k, w) :: rest, key, v =>
    if k = key then (key, v) :: rest else (k, w) :: alistAssign rest key v

/-- `this.defaultPacker = defaultPackerUnpacker?.packer ?? JSON.stringify`. -/
def Config.defaultPacker (cfg : Config) : JVal → String :=
  (cfg.defaultPackerUnpacker.bind fun d => d.packer).getD stringify

/-- `this.defaultUnpackInitiator = defaultPackerUnpacker?.unpacker ??
jsonParseUnpackInitiator`. -/
def Config.defaultUnpackInitiator (cfg : Config) : Option String → Option JVal :=
  (cfg.defaultPackerUnpacker.bind fun d => d.unpacker).getD jsonParseUnpackInitiator

/-- `this.packerUnpackers?.[key]`. -/
def Config.keyCodec (cfg : Config) (key : String) : Option KeyCodec :=
  cfg.packerUnpackers.bind fun l => alistLookup l key

/-- Packer resolution in `persist`:
`this.packerUnpackers?.[key]?.packer ?? this.defaultPacker`. -/
def Config.resolvePacker (cfg : Config) (key : String) : JVal → String :=
  ((cfg.keyCodec key).bind fun c => c.packer).getD cfg.defaultPacker

/-- Unpacker resolution in the constructor:
`this.packerUnpackers?.[k]?.unpackInitiator ?? this.defaultUnpackInitiator`. -/
def Config.resolveUnpackInitiator (cfg : Config) (key : String) :
    Option String → Option JVal :=
  ((cfg.keyCodec key).bind fun c => c.unpackInitiator).getD cfg.defaultUnpackInitiator

/-! ## The proxy state and its operations -/

/-- Host-store write operations (`settingsStorage.setItem` /
`settingsStorage.removeItem`); operation lists model call traces. -/
inductive StoreOp where
  | setItem (key value : String) : StoreOp
  | removeItem (key : String) : StoreOp
deriving Repr, DecidableEq

/-- The key an operation addresses. -/
def StoreOp.key : StoreOp → String
  | .setItem k _ => k
  | .removeItem k => k

/-- The private fields of a `TypedSettingProps` instance:
`typedSettings` (a key bound to `none` models a property that exists and
holds `undefined`), the keys with tracking accessors installed on
`trackedSettings`, and `accessedRegistry` in insertion order. -/
structure ProxyState where
  typedSettings : List (String × Option JVal)
  trackedKeys : List String
  accessedRegistry : List String
deriving Repr

/-- JavaScript property read `this.typedSettings[k]`: `undefined` both for
a missing key and for a key bound to `undefined`. -/
def readTyped (m : List (String × Option JVal)) (k : String) : Option JVal :=
  (alistLookup m k).join

/-- `Set.add`: appends if not yet present (insertion order preserved). -/
def setAdd (s : List String) (k : String) : List String :=
  if k ∈ s then s else s ++ [k]

/-- `persist(key, val)`: a removal for `undefined`, otherwise the resolved
packer encodes the value.  Returns the host-store operations and the trace
of packer invocations. -/
def persist (cfg : Config) (key : String) (val : Option JVal) :
    List StoreOp × List (String × JVal) :=
  match val with
  | none => ([.removeItem key], [])
  | some v => ([.setItem key (cfg.resolvePacker key v)], [(key, v)])

/-- A value of the partial-settings argument of `update`: either the `ASIS`
marker (a unique sentinel, compared by identity) or a value, possibly
`undefined`. -/
inductive UpdateVal where
  | asis : UpdateVal
  | val (v : Option JVal) : UpdateVal

/-- One iteration of the `update` loop:
`const val = v === ASIS ? this.typedSettings[k] : (this.typedSettings[k] = v);
this.persist(k, val);`. -/
def updateStep (cfg : Config) (st : ProxyState) (k : String) (u : UpdateVal) :
    ProxyState × (List StoreOp × List (String × JVal)) :=
  match u with
  | .asis => (st, persist cfg k (readTyped st.typedSettings k))
  | .val v =>
    ({ st with typedSettings := alistAssign st.typedSettings k v }, persist cfg k v)

/-- `update(value)`: iterate over the entries of the partial settings. -/
def updateList (cfg : Config) (st : ProxyState) :
    List (String × UpdateVal) → ProxyState × (List StoreOp × List (String × JVal))
  | [] => (st, ([], []))
  | (k, u) :: rest =>
    let p := updateStep cfg st k u
    let q := updateList cfg p.1 rest
    (q.1, (p.2.1 ++ q.2.1, p.2.2 ++ q.2.2))

/-- A property read through the tracked view returned by `getToUpdate()`:
for a tracked key the getter records the access and returns the current
typed value; for a key with no installed accessor the read yields
`undefined` and has no effect. -/
def trackedAccess (st : ProxyState) (k : String) : Option JVal × ProxyState :=
  if k ∈ st.trackedKeys then
    (readTyped st.typedSettings k,
      { st with accessedRegistry := setAdd st.accessedRegistry k })
  else (none, st)

/-- `commit()`: persist every key of `accessedRegistry` (in insertion
order), then clear the registry. -/
def commitOp (cfg : Config) (st : ProxyState) :
    ProxyState × (List StoreOp × List (String × JVal)) :=
  let effs := st.accessedRegistry.map fun k => persist cfg k (readTyped st.typedSettings k)
  ({ st with accessedRegistry := [] },
    ((effs.map Prod.fst).flatten, (effs.map Prod.snd).flatten))

/-- In-place mutation of a (nested) structure obtained by reference from
the proxy: the typed value under `k` changes without any proxy method
running. -/
def mutateInPlace (st : ProxyState) (k : String) (v : JVal) : ProxyState :=
  { st with typedSettings := alistAssign st.typedSettings k (some v) }

/-- Intermediate result of the constructor loops: the private state and
the trace of unpack-initiator invocations `(key, argument)`. -/
structure BuildAcc where
  state : ProxyState
  unpackCalls : List (String × Option String)
deriving Repr

/-- First constructor loop: for every entry of `props.settings`, unpack
with the resolved unpack-initiator and install the tracking accessor. -/
def pass1 (cfg : Config) : List (String × String) → BuildAcc → BuildAcc
  | [], acc => acc
  | (k, v) :: rest, acc =>
    pass1 cfg rest
      { state := { typedSettings := alistAssign acc.state.typedSettings k
                      (cfg.resolveUnpackInitiator k (some v)),
                   trackedKeys := setAdd acc.state.trackedKeys k,
                   accessedRegistry := acc.state.accessedRegistry },
        unpackCalls := acc.unpackCalls ++ [(k, some v)] }

/-- Second constructor loop (only when `packerUnpackers` was supplied):
every configured key with an `unpackInitiator` that is not a key of
`props.settings` is initialized by calling the initiator on `undefined`,
and tracked. -/
def pass2 (settingsKeys : List String) : List (String × KeyCodec) → BuildAcc → BuildAcc
  | [], acc => acc
  | (k, c) :: rest, acc =>
    match c.unpackInitiator with
    | some f =>
      if k ∈ settingsKeys then pass2 settingsKeys rest acc
      else
        pass2 settingsKeys rest
          { state := { typedSettings := alistAssign acc.state.typedSettings k (f none),
                       trackedKeys := setAdd acc.state.trackedKeys k,
                       accessedRegistry := acc.state.accessedRegistry },
            unpackCalls := acc.unpackCalls ++ [(k, none)] }
    | none => pass2 settingsKeys rest acc

/-- The `TypedSettingProps` constructor, from the entries of
`props.settings` (string values, in enumeration order). -/
def construct (cfg : Config) (settings : List (String × String)) : BuildAcc :=
  let r1 := pass1 cfg settings ⟨⟨[], [], []⟩, []⟩
  match cfg.packerUnpackers with
  | some l => pass2 (settings.map Prod.fst) l r1
  | none => r1

/-! ## Claim C1: round-trip under the default policy -/

/-- C1.  Under the built-in default policy (packer `JSON.stringify`,
unpacker `jsonParseUnpackInitiator`): decoding the encoding of any
representable value returns exactly that value; decoding absence yields
absence; and for every raw string that is valid structured text, encoding
its decoded value decodes back to the same value (so `encode (decode s)`
reproduces a value structurally equal to `decode s`). -/
theorem claim_C1_default_policy_roundtrip :
    (∀ v : JVal, jsonParseUnpackInitiator (some (stringify v)) = some v) ∧
    jsonParseUnpackInitiator none = none ∧
    (∀ (s : String) (v : JVal), parse s = some v →
      jsonParseUnpackInitiator (some s) = some v ∧
      jsonParseUnpackInitiator (some (stringify v)) = some v) := by
  have hmain : ∀ v : JVal, jsonParseUnpackInitiator (some (stringify v)) = some v := by
    intro v
    rw [jsonParseUnpackInitiator, if_neg (stringify_ne_empty v), parse_stringify]
  refine ⟨hmain, rfl, ?_⟩
  intro s v hp
  have hs : s ≠ "" := by
    intro he
    rw [he] at hp
    exact Option.noConfusion ((show parse "" = none from rfl) ▸ hp)
  constructor
  · rw [jsonParseUnpackInitiator, if_neg hs, hp]
  · exact hmain v

/-- Witness for C1 at a concrete valid structured-text input. -/
theorem claim_C1_default_policy_roundtrip_witness :
    jsonParseUnpackInitiator (some "[1,2]") = some (.arr [.num 1, .num 2]) ∧
    jsonParseUnpackInitiator (some (stringify (.arr [.num 1, .num 2]))) =
      some (.arr [.num 1, .num 2]) :=
  claim_C1_default_policy_roundtrip.2.2 "[1,2]" (.arr [.num 1, .num 2]) rfl

/-! ## Association-list and loop lemmas -/

theorem alistLookup_assign_self {α : Type} (m : List (String × α)) (k : String) (v : α) :
    alistLookup (alistAssign m k v) k = some v := by
  induction m with
  | nil => simp [alistAssign, alistLookup]
  | cons p rest ih =>
    obtain ⟨k1, w⟩ := p
    by_cases h : k1 = k
    · simp [alistAssign, h, alistLookup]
    · simp [alistAssign, alistLookup, h, ih]

theorem alistLookup_assign_other {α : Type} (m : List (String × α)) (k l : String) (v : α)
    (h : l ≠ k) : alistLookup (alistAssign m k v) l = alistLookup m l := by
  have hkl : ¬k = l := fun he => h he.symm
  induction m with
  | nil => simp [alistAssign, alistLookup, hkl]
  | cons p rest ih =>
    obtain ⟨k1, w⟩ := p
    by_cases h1 : k1 = k
    · subst h1
      simp [alistAssign, alistLookup, hkl]
    · simp [alistAssign, alistLookup, h1, ih]

theorem alistAssign_self_of_lookup {α : Type} (m : List (String × α)) (k : String) (v : α)
    (h : alistLookup m k = some v) : alistAssign m k v = m := by
  induction m with
  | nil => simp [alistLookup] at h
  | cons p rest ih =>
    obtain ⟨k1, w⟩ := p
    by_cases h1 : k1 = k
    · subst h1
      simp [alistLookup] at h
      simp [alistAssign, h]
    · simp [alistLookup, h1] at h
      simp [alistAssign, h1, ih h]

theorem setAdd_sub (s : List String) (k : String) (t : List String)
    (hs : s ⊆ t) (hk : k ∈ t) : setAdd s k ⊆ t := by
  rw [setAdd]
  split
  · exact hs
  · intro x hx
    rcases List.mem_append.1 hx with h | h
    · exact hs h
    · simp at h; subst h; exact hk

theorem mem_setAdd_self (s : List String) (k : String) : k ∈ setAdd s k := by
  rw [setAdd]; split
  · assumption
  · simp

theorem mem_setAdd_of_mem (s : List String) (k l : String) (h : l ∈ s) : l ∈ setAdd s k := by
  rw [setAdd]; split
  · exact h
  · simp [h]

theorem mem_setAdd_elim (s : List String) (k l : String) (h : l ∈ setAdd s k) :
    l ∈ s ∨ l = k := by
  rw [setAdd] at h
  split at h
  · exact Or.inl h
  · rcases List.mem_append.1 h with h | h
    · exact Or.inl h
    · simp at h; exact Or.inr h

/-! Loop lemmas for `update`. -/

theorem persist_ops_key (cfg : Config) (k : String) (val : Option JVal) :
    ∀ op ∈ (persist cfg k val).1, op.key = k := by
  intro op hop
  cases val <;> simp [persist] at hop <;> simp [hop, StoreOp.key]

theorem updateStep_frame (cfg : Config) (st : ProxyState) (k : String) (u : UpdateVal) :
    (updateStep cfg st k u).1.accessedRegistry = st.accessedRegistry ∧
    (updateStep cfg st k u).1.trackedKeys = st.trackedKeys := by
  cases u <;> simp [updateStep]

theorem updateList_frame (cfg : Config) (u : List (String × UpdateVal)) :
    ∀ st : ProxyState, (updateList cfg st u).1.accessedRegistry = st.accessedRegistry ∧
      (updateList cfg st u).1.trackedKeys = st.trackedKeys := by
  induction u with
  | nil => intro st; simp [updateList]
  | cons p rest ih =>
    intro st
    obtain ⟨k, uv⟩ := p
    obtain ⟨h1, h2⟩ := updateStep_frame cfg st k uv
    obtain ⟨h3, h4⟩ := ih (updateStep cfg st k uv).1
    exact ⟨by rw [updateList, h3, h1], by rw [updateList, h4, h2]⟩

theorem updateList_untouched (cfg : Config) (u : List (String × UpdateVal)) :
    ∀ (st : ProxyState) (l : String), (∀ p ∈ u, p.1 ≠ l) →
      readTyped (updateList cfg st u).1.typedSettings l = readTyped st.typedSettings l ∧
      ∀ op ∈ (updateList cfg st u).2.1, op.key ≠ l := by
  induction u with
  | nil => intro st l _; simp [updateList]
  | cons p rest ih =>
    intro st l hl
    obtain ⟨k, uv⟩ := p
    have hkl : k ≠ l := hl (k, uv) (by simp)
    have hrest : ∀ p ∈ rest, p.1 ≠ l := fun p hp => hl p (by simp [hp])
    obtain ⟨ih1, ih2⟩ := ih (updateStep cfg st k uv).1 l hrest
    have hstep : readTyped (updateStep cfg st k uv).1.typedSettings l =
        readTyped st.typedSettings l := by
      cases uv with
      | asis => rfl
      | val v => simp [updateStep, readTyped, alistLookup_assign_other _ _ _ _ (Ne.symm hkl)]
    have hops : ∀ op ∈ (updateStep cfg st k uv).2.1, op.key ≠ l := by
      intro op hop
      have hok : op.key = k := by
        cases uv with
        | asis => exact persist_ops_key cfg k _ op hop
        | val v => exact persist_ops_key cfg k v op hop
      rw [hok]; exact hkl
    refine ⟨by rw [updateList, ih1, hstep], ?_⟩
    intro op hop
    rw [updateList] at hop
    rcases List.mem_append.1 hop with h | h
    · exact hops op h
    · exact ih2 op h

/-! Loop lemmas for the constructor and `commit`. -/

theorem pass1_registry (cfg : Config) (entries : List (String × String)) :
    ∀ acc : BuildAcc, (pass1 cfg entries acc).state.accessedRegistry =
      acc.state.accessedRegistry := by
  induction entries with
  | nil => intro acc; rfl
  | cons e rest ih =>
    intro acc
    obtain ⟨k, v⟩ := e
    rw [pass1, ih]

theorem pass2_registry (sk : List String) (l : List (String × KeyCodec)) :
    ∀ acc : BuildAcc, (pass2 sk l acc).state.accessedRegistry =
      acc.state.accessedRegistry := by
  induction l with
  | nil => intro acc; rfl
  | cons e rest ih =>
    intro acc
    obtain ⟨k, c⟩ := e
    rw [pass2]
    cases c.unpackInitiator with
    | none => exact ih acc
    | some f =>
      by_cases h : k ∈ sk
      · simp only [h, if_true]
        exact ih acc
      · simp only [h, if_false]
        exact ih _

theorem construct_registry (cfg : Config) (settings : List (String × String)) :
    (construct cfg settings).state.accessedRegistry = [] := by
  rw [construct]
  cases cfg.packerUnpackers with
  | none => simp [pass1_registry]
  | some l => simp [pass2_registry, pass1_registry]

theorem commitOp_ops_key (cfg : Config) (st : ProxyState) :
    ∀ op ∈ (commitOp cfg st).2.1, op.key ∈ st.accessedRegistry := by
  intro op hop
  simp only [commitOp, List.mem_flatten, List.mem_map] at hop
  obtain ⟨ops, ⟨⟨eff, ⟨⟨k, hk, heff⟩, hops⟩⟩, hop⟩⟩ := hop
  subst heff hops
  rw [persist_ops_key cfg k _ op hop]
  exact hk

/-! ## Claim C7: removal semantics of absent values -/

/-- C7.  `update({k: undefined})` issues exactly one host-store removal for
`k` (in particular no `setItem` for `k`), invokes no packer, and leaves the
typed view of `k` absent; in general, persisting an absent value (from
`update` or `commit`) is a removal and never reaches the packer. -/
theorem claim_C7_removal_semantics (cfg : Config) (st : ProxyState) (k : String) :
    (updateList cfg st [(k, .val none)]).2.1 = [.removeItem k] ∧
    (updateList cfg st [(k, .val none)]).2.2 = [] ∧
    readTyped (updateList cfg st [(k, .val none)]).1.typedSettings k = none ∧
    (∀ key, persist cfg key none = ([.removeItem key], [])) := by
  refine ⟨rfl, rfl, ?_, fun key => rfl⟩
  simp [updateList, updateStep, readTyped, alistLookup_assign_self]

/-! ## Claim C9: update does not touch the dirty set -/

/-- C9.  A direct `update()` call changes the facade dirty-state of no key
(the registry is untouched by `update`, and so are the installed
accessors); a key can enter the dirty set only through a read of the
tracked view: the registry is empty at construction, a tracked read adds
at most the read key, `commit()` clears the registry, and in-place
mutation leaves it unchanged. -/
theorem claim_C9_update_dirty_frame (cfg : Config) (st : ProxyState)
    (u : List (String × UpdateVal)) (k : String) (v : JVal)
    (settings : List (String × String)) :
    (updateList cfg st u).1.accessedRegistry = st.accessedRegistry ∧
    (updateList cfg st u).1.trackedKeys = st.trackedKeys ∧
    (construct cfg settings).state.accessedRegistry = [] ∧
    (trackedAccess st k).2.accessedRegistry =
      (if k ∈ st.trackedKeys then setAdd st.accessedRegistry k
        else st.accessedRegistry) ∧
    (commitOp cfg st).1.accessedRegistry = [] ∧
    (mutateInPlace st k v).accessedRegistry = st.accessedRegistry := by
  refine ⟨(updateList_frame cfg u st).1, (updateList_frame cfg u st).2,
    construct_registry cfg settings, ?_, rfl, rfl⟩
  by_cases h : k ∈ st.trackedKeys <;> simp [trackedAccess, h]

/-! ## Claim C2: dirty tracking drives commit -/

/-- C2.  With an empty registry, `commit()` performs zero host-store
writes.  After exactly one field access through the `getToUpdate()` view
(of a tracked key) followed by in-place mutation of the returned
structure, `commit()` performs exactly one host-store write, for that key;
the registry is cleared by `commit()`, so a further `commit()` with no new
facade access performs zero writes. -/
theorem claim_C2_dirty_tracking (cfg : Config) (st : ProxyState) (k : String) (v : JVal)
    (h0 : st.accessedRegistry = []) (hk : k ∈ st.trackedKeys) :
    (commitOp cfg st).2.1 = [] ∧
    (commitOp cfg (mutateInPlace (trackedAccess st k).2 k v)).2.1 =
      [.setItem k (cfg.resolvePacker k v)] ∧
    (commitOp cfg (mutateInPlace (trackedAccess st k).2 k v)).1.accessedRegistry = [] ∧
    (commitOp cfg (commitOp cfg (mutateInPlace (trackedAccess st k).2 k v)).1).2.1 = [] := by
  have hreg : (mutateInPlace (trackedAccess st k).2 k v).accessedRegistry = [k] := by
    simp [trackedAccess, hk, mutateInPlace, h0, setAdd]
  have hread : readTyped (mutateInPlace (trackedAccess st k).2 k v).typedSettings k =
      some v := by
    simp [mutateInPlace, readTyped, alistLookup_assign_self]
  refine ⟨by simp [commitOp, h0], ?_, by simp [commitOp], ?_⟩
  · simp [commitOp, hreg, hread, persist]
  · simp [commitOp]

/-- Witness for C2 on a concretely constructed wrapper. -/
theorem claim_C2_dirty_tracking_witness :
    (commitOp defaultConfig (construct defaultConfig [("a", "1")]).state).2.1 = [] ∧
    (commitOp defaultConfig (mutateInPlace
        (trackedAccess (construct defaultConfig [("a", "1")]).state "a").2 "a" (.num 2))).2.1 =
      [.setItem "a" (defaultConfig.resolvePacker "a" (.num 2))] ∧
    (commitOp defaultConfig (mutateInPlace
        (trackedAccess (construct defaultConfig [("a", "1")]).state "a").2 "a"
        (.num 2))).1.accessedRegistry = [] ∧
    (commitOp defaultConfig (commitOp defaultConfig (mutateInPlace
        (trackedAccess (construct defaultConfig [("a", "1")]).state "a").2 "a"
        (.num 2))).1).2.1 = [] :=
  claim_C2_dirty_tracking defaultConfig (construct defaultConfig [("a", "1")]).state
    "a" (.num 2) rfl (by decide)

/-! ## Claim C3: the As-Is marker -/

/-- C3 counterexample.  For a key absent from the in-memory map, the claim
"update({k: ASIS}) is behaviorally equivalent (same resulting map ...) to
update({k: currentValue})" fails: both emit the same single removal, but
`update({a: undefined})` inserts the key `a` (bound to absence) into the
map, while `update({a: ASIS})` leaves the map without it. -/
theorem claim_C3_asis_counterexample :
    (updateList defaultConfig (construct defaultConfig []).state
        [("a", .asis)]).1.typedSettings = [] ∧
    (updateList defaultConfig (construct defaultConfig []).state
        [("a", .val none)]).1.typedSettings = [("a", none)] ∧
    (updateList defaultConfig (construct defaultConfig []).state [("a", .asis)]).2.1 =
      (updateList defaultConfig (construct defaultConfig []).state [("a", .val none)]).2.1 ∧
    (updateList defaultConfig (construct defaultConfig []).state
        [("a", .asis)]).1.typedSettings ≠
      (updateList defaultConfig (construct defaultConfig []).state
        [("a", .val none)]).1.typedSettings := by
  refine ⟨rfl, rfl, rfl, ?_⟩
  intro h
  rw [show (updateList defaultConfig (construct defaultConfig []).state
      [("a", .asis)]).1.typedSettings = [] from rfl,
    show (updateList defaultConfig (construct defaultConfig []).state
      [("a", .val none)]).1.typedSettings = [("a", none)] from rfl] at h
  exact List.noConfusion h

/-- C3 as amended.  `update({k: ASIS})` never mutates the map and persists
the current in-memory value of `k` (a removal when that value is absent).
For a key that is present in the map it is behaviorally equivalent — same
resulting state and same host-store operations — to `update({k:
currentValue})`; keys not mentioned in the partial map are untouched (their
typed value is unchanged and no host-store operation addresses them). -/
theorem claim_C3_asis_amended (cfg : Config) (st : ProxyState) (k : String)
    (w : Option JVal) (hk : alistLookup st.typedSettings k = some w) :
    (updateList cfg st [(k, .asis)]).1 = st ∧
    (updateList cfg st [(k, .asis)]).2.1 = (persist cfg k w).1 ∧
    updateList cfg st [(k, .asis)] = updateList cfg st [(k, .val w)] ∧
    (∀ (u : List (String × UpdateVal)) (l : String), (∀ p ∈ u, p.1 ≠ l) →
      readTyped (updateList cfg st u).1.typedSettings l = readTyped st.typedSettings l ∧
      ∀ op ∈ (updateList cfg st u).2.1, op.key ≠ l) := by
  have hread : readTyped st.typedSettings k = w := by simp [readTyped, hk]
  have hassign : alistAssign st.typedSettings k w = st.typedSettings :=
    alistAssign_self_of_lookup st.typedSettings k w hk
  refine ⟨rfl, ?_, ?_, fun u l h => updateList_untouched cfg u st l h⟩
  · simp [updateList, updateStep, hread]
  · simp [updateList, updateStep, hread, hassign]

/-- Witness for the amended C3 on a concretely constructed wrapper. -/
theorem claim_C3_asis_amended_witness :
    (updateList defaultConfig (construct defaultConfig [("a", "1")]).state
        [("a", .asis)]).1 = (construct defaultConfig [("a", "1")]).state ∧
    (updateList defaultConfig (construct defaultConfig [("a", "1")]).state
        [("a", .asis)]).2.1 = (persist defaultConfig "a" (some (.num 1))).1 ∧
    updateList defaultConfig (construct defaultConfig [("a", "1")]).state [("a", .asis)] =
      updateList defaultConfig (construct defaultConfig [("a", "1")]).state
        [("a", .val (some (.num 1)))] ∧
    (∀ (u : List (String × UpdateVal)) (l : String), (∀ p ∈ u, p.1 ≠ l) →
      readTyped (updateList defaultConfig (construct defaultConfig [("a", "1")]).state
          u).1.typedSettings l =
        readTyped (construct defaultConfig [("a", "1")]).state.typedSettings l ∧
      ∀ op ∈ (updateList defaultConfig
          (construct defaultConfig [("a", "1")]).state u).2.1, op.key ≠ l) :=
  claim_C3_asis_amended defaultConfig (construct defaultConfig [("a", "1")]).state
    "a" (some (.num 1)) rfl

/-! ## Claim C6: totality and fallback of the default decode -/

/-- C6 counterexample.  The empty string is not valid structured text, yet
the default decode does not return it unchanged: `setting ? ... :
undefined` treats `""` as falsy, so decoding `""` yields absence, not the
string `""`. -/
theorem claim_C6_fallback_counterexample :
    parse "" = none ∧
    jsonParseUnpackInitiator (some "") = none ∧
    jsonParseUnpackInitiator (some "") ≠ some (.str "") := by
  refine ⟨rfl, rfl, ?_⟩
  intro h
  rw [show jsonParseUnpackInitiator (some "") = none from rfl] at h
  exact Option.noConfusion h

/-- C6 as amended.  The built-in default decode is total by construction;
it returns every nonempty string that is not valid structured text
unchanged; the empty string (falsy, like absence) decodes to absence. -/
theorem claim_C6_fallback_amended :
    (∀ s : String, s ≠ "" → parse s = none →
      jsonParseUnpackInitiator (some s) = some (.str s)) ∧
    jsonParseUnpackInitiator (some "") = none ∧
    jsonParseUnpackInitiator none = none := by
  refine ⟨?_, rfl, rfl⟩
  intro s hs hp
  rw [jsonParseUnpackInitiator, if_neg hs, hp]

/-- Witness for the amended C6 at a concrete non-JSON string. -/
theorem claim_C6_fallback_amended_witness :
    jsonParseUnpackInitiator (some "hello") = some (.str "hello") :=
  claim_C6_fallback_amended.1 "hello" (by decide) rfl

/-! ## Claim C4: per-key / global / built-in codec resolution -/

/-- C4.  For every key and both operations, the effective codec is the
per-key override when supplied, else the supplied global default, else the
built-in default (`JSON.stringify` / `jsonParseUnpackInitiator`); the
resolution at a key depends only on that key's configuration entry and the
global default, so a per-key codec affects no other key; and `persist`
encodes through exactly the resolved packer. -/
theorem claim_C4_codec_resolution (cfg : Config) (k : String) :
    (∀ c p, cfg.keyCodec k = some c → c.packer = some p → cfg.resolvePacker k = p) ∧
    (∀ c u, cfg.keyCodec k = some c → c.unpackInitiator = some u →
      cfg.resolveUnpackInitiator k = u) ∧
    ((cfg.keyCodec k).bind KeyCodec.packer = none →
      cfg.resolvePacker k = cfg.defaultPacker) ∧
    ((cfg.keyCodec k).bind KeyCodec.unpackInitiator = none →
      cfg.resolveUnpackInitiator k = cfg.defaultUnpackInitiator) ∧
    (∀ d p, cfg.defaultPackerUnpacker = some d → d.packer = some p →
      cfg.defaultPacker = p) ∧
    (∀ d u, cfg.defaultPackerUnpacker = some d → d.unpacker = some u →
      cfg.defaultUnpackInitiator = u) ∧
    (cfg.defaultPackerUnpacker.bind DefaultPackerUnpacker.packer = none →
      cfg.defaultPacker = stringify) ∧
    (cfg.defaultPackerUnpacker.bind DefaultPackerUnpacker.unpacker = none →
      cfg.defaultUnpackInitiator = jsonParseUnpackInitiator) ∧
    (∀ (cfg2 : Config) (l : String), cfg2.defaultPackerUnpacker = cfg.defaultPackerUnpacker →
      cfg2.keyCodec l = cfg.keyCodec l →
      cfg2.resolvePacker l = cfg.resolvePacker l ∧
      cfg2.resolveUnpackInitiator l = cfg.resolveUnpackInitiator l) ∧
    (∀ v, persist cfg k (some v) = ([.setItem k (cfg.resolvePacker k v)], [(k, v)])) := by
  refine ⟨?_, ?_, ?_, ?_, ?_, ?_, ?_, ?_, ?_, fun v => rfl⟩
  · intro c p h1 h2; simp [Config.resolvePacker, h1, h2]
  · intro c u h1 h2; simp [Config.resolveUnpackInitiator, h1, h2]
  · intro h; simp [Config.resolvePacker, h]
  · intro h; simp [Config.resolveUnpackInitiator, h]
  · intro d p h1 h2; simp [Config.defaultPacker, h1, h2]
  · intro d u h1 h2; simp [Config.defaultUnpackInitiator, h1, h2]
  · intro h; simp [Config.defaultPacker, h]
  · intro h; simp [Config.defaultUnpackInitiator, h]
  · intro cfg2 l h1 h2
    constructor
    · simp [Config.resolvePacker, Config.defaultPacker, h1, h2]
    · simp [Config.resolveUnpackInitiator, Config.defaultUnpackInitiator, h1, h2]

/-- Witness for C4: a per-key packer for `"a"` wins there, the built-in
default is used where nothing is configured. -/
theorem claim_C4_codec_resolution_witness :
    (Config.mk (some [("a", ⟨some stringifyNonString, none⟩)]) none).resolvePacker "a" =
      stringifyNonString ∧
    defaultConfig.resolvePacker "b" = defaultConfig.defaultPacker ∧
    defaultConfig.defaultPacker = stringify ∧
    defaultConfig.defaultUnpackInitiator = jsonParseUnpackInitiator :=
  ⟨(claim_C4_codec_resolution
      (Config.mk (some [("a", ⟨some stringifyNonString, none⟩)]) none) "a").1
      ⟨some stringifyNonString, none⟩ stringifyNonString rfl rfl,
    (claim_C4_codec_resolution defaultConfig "b").2.2.1 rfl,
    (claim_C4_codec_resolution defaultConfig "b").2.2.2.2.2.2.1 rfl,
    (claim_C4_codec_resolution defaultConfig "b").2.2.2.2.2.2.2.1 rfl⟩

/-! Lookup and call-trace lemmas for the two constructor loops. -/

theorem pass1_lookup_of_not_mem (cfg : Config) (entries : List (String × String)) :
    ∀ (acc : BuildAcc) (k : String), (∀ e ∈ entries, e.1 ≠ k) →
      alistLookup (pass1 cfg entries acc).state.typedSettings k =
        alistLookup acc.state.typedSettings k := by
  induction entries with
  | nil => intro acc k _; rfl
  | cons e rest ih =>
    intro acc k hk
    obtain ⟨k1, v1⟩ := e
    have h1 : k1 ≠ k := hk (k1, v1) (by simp)
    rw [pass1, ih _ k (fun e he => hk e (by simp [he]))]
    simp [alistLookup_assign_other _ _ _ _ (Ne.symm h1)]

theorem pass1_spec (cfg : Config) (entries : List (String × String)) :
    ∀ (acc : BuildAcc) (k : String) (s : String),
      (entries.map Prod.fst).Nodup → (k, s) ∈ entries →
      alistLookup (pass1 cfg entries acc).state.typedSettings k =
        some (cfg.resolveUnpackInitiator k (some s)) := by
  induction entries with
  | nil => intro acc k s _ h; simp at h
  | cons e rest ih =>
    intro acc k s hnd hmem
    obtain ⟨k1, v1⟩ := e
    simp only [List.map_cons, List.nodup_cons] at hnd
    rcases List.mem_cons.1 hmem with h | h
    · injection h with hk hv
      subst hk; subst hv
      rw [pass1, pass1_lookup_of_not_mem cfg rest _ k ?_]
      · simp [alistLookup_assign_self]
      · intro e he hek
        exact hnd.1 (hek ▸ List.mem_map_of_mem Prod.fst he)
    · rw [pass1]
      exact ih _ k s hnd.2 h

theorem pass1_calls (cfg : Config) (entries : List (String × String)) :
    ∀ (acc : BuildAcc) (x : String × Option String),
      x ∈ (pass1 cfg entries acc).unpackCalls →
      x ∈ acc.unpackCalls ∨ ∃ e ∈ entries, x = (e.1, some e.2) := by
  induction entries with
  | nil => intro acc x h; exact Or.inl h
  | cons e rest ih =>
    intro acc x h
    obtain ⟨k1, v1⟩ := e
    rw [pass1] at h
    rcases ih _ x h with h2 | ⟨e2, he2, hx⟩
    · rcases List.mem_append.1 h2 with h3 | h3
      · exact Or.inl h3
      · simp at h3
        exact Or.inr ⟨(k1, v1), by simp, by simp [h3]⟩
    · exact Or.inr ⟨e2, by simp [he2], hx⟩

theorem pass1_tracked (cfg : Config) (entries : List (String × String)) :
    ∀ (acc : BuildAcc) (k : String), k ∈ (pass1 cfg entries acc).state.trackedKeys →
      k ∈ acc.state.trackedKeys ∨ k ∈ entries.map Prod.fst := by
  induction entries with
  | nil => intro acc k h; exact Or.inl h
  | cons e rest ih =>
    intro acc k h
    obtain ⟨k1, v1⟩ := e
    rw [pass1] at h
    rcases ih _ k h with h2 | h2
    · rcases mem_setAdd_elim _ _ _ h2 with h3 | h3
      · exact Or.inl h3
      · exact Or.inr (by simp [h3])
    · exact Or.inr (by simp [h2])

theorem pass2_lookup_of_mem_sk (sk : List String) (l : List (String × KeyCodec)) :
    ∀ (acc : BuildAcc) (k : String), k ∈ sk →
      alistLookup (pass2 sk l acc).state.typedSettings k =
        alistLookup acc.state.typedSettings k := by
  induction l with
  | nil => intro acc k _; rfl
  | cons e rest ih =>
    intro acc k hk
    obtain ⟨k1, c1⟩ := e
    rw [pass2]
    cases c1.unpackInitiator with
    | none => exact ih acc k hk
    | some f =>
      by_cases h : k1 ∈ sk
      · simp only [h, if_true]
        exact ih acc k hk
      · simp only [h, if_false]
        rw [ih _ k hk]
        have hne : k1 ≠ k := fun he => h (he ▸ hk)
        simp [alistLookup_assign_other _ _ _ _ (Ne.symm hne)]

theorem pass2_calls_mono (sk : List String) (l : List (String × KeyCodec)) :
    ∀ (acc : BuildAcc) (x : String × Option String),
      x ∈ acc.unpackCalls → x ∈ (pass2 sk l acc).unpackCalls := by
  induction l with
  | nil => intro acc x h; exact h
  | cons e rest ih =>
    intro acc x h
    obtain ⟨k1, c1⟩ := e
    rw [pass2]
    cases c1.unpackInitiator with
    | none => exact ih acc x h
    | some f =>
      by_cases hm : k1 ∈ sk
      · simp only [hm, if_true]
        exact ih acc x h
      · simp only [hm, if_false]
        exact ih _ x (by simp [h])

theorem pass2_lookup_of_not_key (sk : List String) (l : List (String × KeyCodec)) :
    ∀ (acc : BuildAcc) (k : String), (∀ e ∈ l, e.1 ≠ k) →
      alistLookup (pass2 sk l acc).state.typedSettings k =
        alistLookup acc.state.typedSettings k := by
  induction l with
  | nil => intro acc k _; rfl
  | cons e rest ih =>
    intro acc k hk
    obtain ⟨k1, c1⟩ := e
    have h1 : k1 ≠ k := hk (k1, c1) (by simp)
    rw [pass2]
    cases c1.unpackInitiator with
    | none => exact ih acc k (fun e he => hk e (by simp [he]))
    | some f =>
      by_cases hm : k1 ∈ sk
      · simp only [hm, if_true]
        exact ih acc k (fun e he => hk e (by simp [he]))
      · simp only [hm, if_false]
        rw [ih _ k (fun e he => hk e (by simp [he]))]
        simp [alistLookup_assign_other _ _ _ _ (Ne.symm h1)]

theorem pass2_spec (sk : List String) (l : List (String × KeyCodec)) :
    ∀ (acc : BuildAcc) (k : String) (c : KeyCodec) (f : Option String → Option JVal),
      (l.map Prod.fst).Nodup → (k, c) ∈ l → c.unpackInitiator = some f → k ∉ sk →
      alistLookup (pass2 sk l acc).state.typedSettings k = some (f none) ∧
      (k, (none : Option String)) ∈ (pass2 sk l acc).unpackCalls := by
  induction l with
  | nil => intro acc k c f _ h _ _; simp at h
  | cons e rest ih =>
    intro acc k c f hnd hmem hf hsk
    obtain ⟨k1, c1⟩ := e
    simp only [List.map_cons, List.nodup_cons] at hnd
    rcases List.mem_cons.1 hmem with h | h
    · have hk : k1 = k := (congrArg Prod.fst h).symm
      have hc : c1 = c := (congrArg Prod.snd h).symm
      subst hk
      have hrest : ∀ e ∈ rest, e.1 ≠ k1 := by
        intro e he hek
        exact hnd.1 (hek ▸ List.mem_map_of_mem Prod.fst he)
      rw [pass2, hc, hf]
      simp only [hsk, if_false]
      constructor
      · rw [pass2_lookup_of_not_key sk rest _ k1 hrest]
        simp [alistLookup_assign_self]
      · exact pass2_calls_mono sk rest _ _ (by simp)
    · rw [pass2]
      cases hc1 : c1.unpackInitiator with
      | none => exact ih acc k c f hnd.2 h hf hsk
      | some g =>
        by_cases hm : k1 ∈ sk
        · simp only [hm, if_true]
          exact ih acc k c f hnd.2 h hf hsk
        · simp only [hm, if_false]
          exact ih _ k c f hnd.2 h hf hsk

theorem pass2_calls (sk : List String) (l : List (String × KeyCodec)) :
    ∀ (acc : BuildAcc) (x : String × Option String),
      x ∈ (pass2 sk l acc).unpackCalls →
      x ∈ acc.unpackCalls ∨ (x.2 = none ∧ x.1 ∉ sk) := by
  induction l with
  | nil => intro acc x h; exact Or.inl h
  | cons e rest ih =>
    intro acc x h
    obtain ⟨k1, c1⟩ := e
    rw [pass2] at h
    cases hc1 : c1.unpackInitiator with
    | none =>
      simp only [hc1] at h
      exact ih acc x h
    | some g =>
      simp only [hc1] at h
      by_cases hm : k1 ∈ sk
      · rw [if_pos hm] at h
        exact ih acc x h
      · rw [if_neg hm] at h
        rcases ih _ x h with h2 | h2
        · rcases List.mem_append.1 h2 with h3 | h3
          · exact Or.inl h3
          · simp at h3
            exact Or.inr ⟨by simp [h3], by simp [h3, hm]⟩
        · exact Or.inr h2

theorem pass2_tracked (sk : List String) (l : List (String × KeyCodec)) :
    ∀ (acc : BuildAcc) (k : String), k ∈ (pass2 sk l acc).state.trackedKeys →
      k ∈ acc.state.trackedKeys ∨ k ∈ l.map Prod.fst := by
  induction l with
  | nil => intro acc k h; exact Or.inl h
  | cons e rest ih =>
    intro acc k h
    obtain ⟨k1, c1⟩ := e
    rw [pass2] at h
    cases hc1 : c1.unpackInitiator with
    | none =>
      simp only [hc1] at h
      rcases ih acc k h with h2 | h2
      · exact Or.inl h2
      · exact Or.inr (by simp [h2])
    | some g =>
      simp only [hc1] at h
      by_cases hm : k1 ∈ sk
      · rw [if_pos hm] at h
        rcases ih acc k h with h2 | h2
        · exact Or.inl h2
        · exact Or.inr (by simp [h2])
      · rw [if_neg hm] at h
        rcases ih _ k h with h2 | h2
        · rcases mem_setAdd_elim _ _ _ h2 with h3 | h3
          · exact Or.inl h3
          · exact Or.inr (by simp [h3])
        · exact Or.inr (by simp [h2])

/-! ## Claim C5: initializer semantics -/

/-- C5.  A key with a configured `unpackInitiator` that is absent from the
host store's entries is initialized, at construction, to exactly the
result of invoking that initiator on absence (and such an invocation is
recorded); for a key present in the entries, no unpacker is ever invoked
with an absent argument (every pass-one call carries the stored string,
and pass two skips keys of the entries). -/
theorem claim_C5_initializer_semantics (cfg : Config) (settings : List (String × String))
    (l : List (String × KeyCodec)) (k : String) (c : KeyCodec)
    (f : Option String → Option JVal)
    (hl : cfg.packerUnpackers = some l) (hnd : (l.map Prod.fst).Nodup)
    (hk : (k, c) ∈ l) (hf : c.unpackInitiator = some f) :
    (k ∉ settings.map Prod.fst →
      alistLookup (construct cfg settings).state.typedSettings k = some (f none) ∧
      (k, (none : Option String)) ∈ (construct cfg settings).unpackCalls) ∧
    (k ∈ settings.map Prod.fst →
      (k, (none : Option String)) ∉ (construct cfg settings).unpackCalls) := by
  constructor
  · intro habs
    rw [construct]
    simp only [hl]
    exact pass2_spec (settings.map Prod.fst) l _ k c f hnd hk hf habs
  · intro hmem hcall
    rw [construct] at hcall
    simp only [hl] at hcall
    rcases pass2_calls (settings.map Prod.fst) l _ _ hcall with h2 | h2
    · rcases pass1_calls cfg settings _ _ h2 with h3 | ⟨e, _, hx⟩
      · simp at h3
      · exact Option.noConfusion (congrArg Prod.snd hx)
    · exact h2.2 hmem

/-- Witness for C5: a configured initializer fills in the missing key
`"b"`, and for the present key `"a"` no absent-argument call is made. -/
theorem claim_C5_initializer_semantics_witness :
    (alistLookup (construct
        (Config.mk (some [("b", ⟨none, some (fun _ => some (.num 7))⟩)]) none)
        [("a", "1")]).state.typedSettings "b" = some (some (.num 7)) ∧
      ("b", (none : Option String)) ∈ (construct
        (Config.mk (some [("b", ⟨none, some (fun _ => some (.num 7))⟩)]) none)
        [("a", "1")]).unpackCalls) ∧
    (("a", (none : Option String)) ∉ (construct
        (Config.mk (some [("a", ⟨none, some (fun _ => some (.num 7))⟩)]) none)
        [("a", "1")]).unpackCalls) :=
  ⟨(claim_C5_initializer_semantics
      (Config.mk (some [("b", ⟨none, some (fun _ => some (.num 7))⟩)]) none)
      [("a", "1")] [("b", ⟨none, some (fun _ => some (.num 7))⟩)] "b"
      ⟨none, some (fun _ => some (.num 7))⟩ (fun _ => some (.num 7))
      rfl (by simp) (by simp) rfl).1 (by simp),
    (claim_C5_initializer_semantics
      (Config.mk (some [("a", ⟨none, some (fun _ => some (.num 7))⟩)]) none)
      [("a", "1")] [("a", ⟨none, some (fun _ => some (.num 7))⟩)] "a"
      ⟨none, some (fun _ => some (.num 7))⟩ (fun _ => some (.num 7))
      rfl (by simp) (by simp) rfl).2 (by simp)⟩

/-! ## Claim C8: absence in the typed map after construction -/

/-- C8 counterexample.  The claim "absence is never stored: a key whose
decode yields an absent result is omitted from the map" fails: the
constructor assigns the unpacker's result unconditionally, so the entry
`("a", "")` — whose default decode is absence, the empty string being
falsy — leaves the key `a` present in the map, bound to absence. -/
theorem claim_C8_absence_counterexample :
    jsonParseUnpackInitiator (some "") = none ∧
    (construct defaultConfig [("a", "")]).state.typedSettings = [("a", none)] ∧
    alistLookup (construct defaultConfig [("a", "")]).state.typedSettings "a" =
      some none := ⟨rfl, rfl, rfl⟩

/-- C8 as amended.  The constructor stores the resolved unpacker's result
verbatim under every host-store key — including an absent result, which
leaves the key present in the map bound to absence (a property read still
yields absence, but the key is not omitted). -/
theorem claim_C8_absence_amended (cfg : Config) (settings : List (String × String))
    (k s : String) (hnd : (settings.map Prod.fst).Nodup) (hk : (k, s) ∈ settings) :
    alistLookup (construct cfg settings).state.typedSettings k =
      some (cfg.resolveUnpackInitiator k (some s)) := by
  have hmem : k ∈ settings.map Prod.fst := List.mem_map_of_mem Prod.fst hk
  rw [construct]
  cases hpu : cfg.packerUnpackers with
  | none => exact pass1_spec cfg settings _ k s hnd hk
  | some l =>
    rw [pass2_lookup_of_mem_sk (settings.map Prod.fst) l _ k hmem]
    exact pass1_spec cfg settings _ k s hnd hk

/-- Witness for the amended C8 (note the decode result of `""` is absence,
and the key stays present). -/
theorem claim_C8_absence_amended_witness :
    alistLookup (construct defaultConfig [("a", "")]).state.typedSettings "a" =
      some (defaultConfig.resolveUnpackInitiator "a" (some "")) :=
  claim_C8_absence_amended defaultConfig [("a", "")] "a" "" (by simp) (by simp)

/-! ## Claim C10: keys introduced after construction are never tracked -/

/-- The proxy operations a caller can perform after construction. -/
inductive Action where
  | upd (u : List (String × UpdateVal)) : Action
  | access (k : String) : Action
  | mutate (k : String) (v : JVal) : Action
  | commit : Action

/-- State transition of one operation (host-store effects dropped). -/
def stepState (cfg : Config) (st : ProxyState) : Action → ProxyState
  | .upd u => (updateList cfg st u).1
  | .access k => (trackedAccess st k).2
  | .mutate k v => mutateInPlace st k v
  | .commit => (commitOp cfg st).1

/-- Run a sequence of operations. -/
def runActions (cfg : Config) : ProxyState → List Action → ProxyState
  | st, [] => st
  | st, a :: rest => runActions cfg (stepState cfg st a) rest

theorem stepState_trackedKeys (cfg : Config) (st : ProxyState) (a : Action) :
    (stepState cfg st a).trackedKeys = st.trackedKeys := by
  cases a with
  | upd u => exact (updateList_frame cfg u st).2
  | access k =>
    by_cases h : k ∈ st.trackedKeys <;> simp [stepState, trackedAccess, h]
  | mutate k v => rfl
  | commit => rfl

theorem stepState_registry_sub (cfg : Config) (st : ProxyState) (a : Action)
    (h : ∀ x ∈ st.accessedRegistry, x ∈ st.trackedKeys) :
    ∀ x ∈ (stepState cfg st a).accessedRegistry, x ∈ st.trackedKeys := by
  cases a with
  | upd u =>
    intro x hx
    rw [show (stepState cfg st (.upd u)).accessedRegistry = st.accessedRegistry from
      (updateList_frame cfg u st).1] at hx
    exact h x hx
  | access k =>
    intro x hx
    by_cases hk : k ∈ st.trackedKeys
    · simp only [stepState, trackedAccess, hk, if_true] at hx
      rcases mem_setAdd_elim _ _ _ hx with h2 | h2
      · exact h x h2
      · exact h2 ▸ hk
    · simp only [stepState, trackedAccess, hk, if_false] at hx
      exact h x hx
  | mutate k v => exact h
  | commit => intro x hx; simp [stepState, commitOp] at hx

theorem runActions_invariant (cfg : Config) (acts : List Action) :
    ∀ st : ProxyState, (∀ x ∈ st.accessedRegistry, x ∈ st.trackedKeys) →
      (runActions cfg st acts).trackedKeys = st.trackedKeys ∧
      (∀ x ∈ (runActions cfg st acts).accessedRegistry,
        x ∈ st.trackedKeys) := by
  induction acts with
  | nil => intro st h; exact ⟨rfl, h⟩
  | cons a rest ih =>
    intro st h
    have htr := stepState_trackedKeys cfg st a
    have hreg := stepState_registry_sub cfg st a h
    obtain ⟨ih1, ih2⟩ := ih (stepState cfg st a) (by rw [htr]; exact hreg)
    exact ⟨by rw [runActions, ih1, htr], fun x hx => htr ▸ ih2 x hx⟩

/-- C10.  Tracking accessors exist only for keys installed at construction
(keys of the host-store entries plus configured initializer keys); for any
key not tracked at construction and any sequence of proxy operations — in
particular ones that first introduce that key through `update()` — the key
never becomes tracked, a read of it through the `getToUpdate()` view
returns `undefined` and changes nothing, the key never enters the dirty
set, and `commit()` never persists it. -/
theorem claim_C10_post_construction_keys (cfg : Config)
    (settings : List (String × String)) (k : String)
    (hk : k ∉ (construct cfg settings).state.trackedKeys) :
    (∀ x ∈ (construct cfg settings).state.trackedKeys,
      x ∈ settings.map Prod.fst ∨
        x ∈ (match cfg.packerUnpackers with
          | some l => l.map Prod.fst
          | none => [])) ∧
    ∀ acts : List Action,
      (runActions cfg (construct cfg settings).state acts).trackedKeys =
        (construct cfg settings).state.trackedKeys ∧
      k ∉ (runActions cfg (construct cfg settings).state acts).accessedRegistry ∧
      trackedAccess (runActions cfg (construct cfg settings).state acts) k =
        (none, runActions cfg (construct cfg settings).state acts) ∧
      ∀ op ∈ (commitOp cfg (runActions cfg (construct cfg settings).state acts)).2.1,
        op.key ≠ k := by
  constructor
  · intro x hx
    rw [construct] at hx
    cases hpu : cfg.packerUnpackers with
    | none =>
      simp only [hpu] at hx
      rcases pass1_tracked cfg settings _ x hx with h | h
      · simp at h
      · exact Or.inl h
    | some l =>
      simp only [hpu] at hx
      rcases pass2_tracked (settings.map Prod.fst) l _ x hx with h | h
      · rcases pass1_tracked cfg settings _ x h with h2 | h2
        · simp at h2
        · exact Or.inl h2
      · exact Or.inr h
  · intro acts
    have hinv := runActions_invariant cfg acts (construct cfg settings).state
      (by rw [construct_registry]; intro x hx; simp at hx)
    obtain ⟨h1, h2⟩ := hinv
    have hreg : k ∉ (runActions cfg (construct cfg settings).state acts).accessedRegistry :=
      fun hx => hk (h2 k hx)
    have hntr : k ∉ (runActions cfg (construct cfg settings).state acts).trackedKeys := by
      rw [h1]; exact hk
    refine ⟨h1, hreg, by simp [trackedAccess, hntr], ?_⟩
    intro op hop
    intro hkey
    exact hreg (hkey ▸ commitOp_ops_key cfg _ op hop)

/-- Witness for C10: key `"b"`, first introduced by an `update`, is never
persisted by `commit` even after being written and "accessed". -/
theorem claim_C10_post_construction_keys_witness :
    (runActions defaultConfig (construct defaultConfig [("a", "1")]).state
        [.upd [("b", .val (some (.num 5)))], .access "b", .commit]).trackedKeys =
      (construct defaultConfig [("a", "1")]).state.trackedKeys ∧
    "b" ∉ (runActions defaultConfig (construct defaultConfig [("a", "1")]).state
        [.upd [("b", .val (some (.num 5)))], .access "b", .commit]).accessedRegistry ∧
    trackedAccess (runActions defaultConfig (construct defaultConfig [("a", "1")]).state
        [.upd [("b", .val (some (.num 5)))], .access "b", .commit]) "b" =
      (none, runActions defaultConfig (construct defaultConfig [("a", "1")]).state
        [.upd [("b", .val (some (.num 5)))], .access "b", .commit]) ∧
    ∀ op ∈ (commitOp defaultConfig
        (runActions defaultConfig (construct defaultConfig [("a", "1")]).state
          [.upd [("b", .val (some (.num 5)))], .access "b", .commit])).2.1,
      op.key ≠ "b" :=
  (claim_C10_post_construction_keys defaultConfig [("a", "1")] "b" (by decide)).2
    [.upd [("b", .val (some (.num 5)))], .access "b", .commit]

end FitbitSettings
